import Mathlib

/-!
Verification of the Hypothesis-rs repository: the Unicode category index
("charmap"), the example-value store ("database"), and the table generator.

The charmap and database cores are shallowly embedded below; the table
generator's abbreviation table and its replacement loop are translated from
`crates/charmap/generate_tables.py`.
-/

set_option maxRecDepth 8000

namespace HypothesisRs

/-- The 30 two-letter Unicode General_Category abbreviations: the 29 assigned
categories plus the unassigned category `Cn`. -/
inductive Cat where
  | Lu | Ll | Lt | Lm | Lo
  | Mn | Mc | Me
  | Nd | Nl | No
  | Pc | Pd | Ps | Pe | Pi | Pf | Po
  | Sm | Sc | Sk | So
  | Zs | Zl | Zp
  | Cc | Cf | Cs | Co | Cn
  deriving DecidableEq

/-- The 30 category abbreviations as a list. -/
def allCats : List Cat :=
  [.Lu, .Ll, .Lt, .Lm, .Lo, .Mn, .Mc, .Me, .Nd, .Nl, .No,
   .Pc, .Pd, .Ps, .Pe, .Pi, .Pf, .Po, .Sm, .Sc, .Sk, .So,
   .Zs, .Zl, .Zp, .Cc, .Cf, .Cs, .Co, .Cn]

/-- Modelled from the spec: the generated per-Unicode-version table
(`src/tables/v*.rs`, produced offline by `generate_tables.py`) is not part of
this tree, so the codepoint-range-to-category table is modelled here as a
concrete contiguous table of rows `(low, high, category)`.  Following the
spec's data model it assigns every codepoint in `[0, 0x10FFFF]` exactly one
category: rows are sorted, contiguous (each row starts right after the
previous one ends), no two consecutive rows carry the same category, and all
30 categories occur.  The ASCII region mirrors real Unicode data. -/
def table : List (Nat × Nat × Cat) :=
  [(0x00, 0x1F, .Cc),
   (0x20, 0x20, .Zs),
   (0x21, 0x23, .Po),
   (0x24, 0x24, .Sc),
   (0x25, 0x27, .Po),
   (0x28, 0x28, .Ps),
   (0x29, 0x29, .Pe),
   (0x2A, 0x2A, .Po),
   (0x2B, 0x2B, .Sm),
   (0x2C, 0x2C, .Po),
   (0x2D, 0x2D, .Pd),
   (0x2E, 0x2F, .Po),
   (0x30, 0x39, .Nd),
   (0x3A, 0x3B, .Po),
   (0x3C, 0x3E, .Sm),
   (0x3F, 0x40, .Po),
   (0x41, 0x5A, .Lu),
   (0x5B, 0x5B, .Ps),
   (0x5C, 0x5C, .Po),
   (0x5D, 0x5D, .Pe),
   (0x5E, 0x5E, .Sk),
   (0x5F, 0x5F, .Pc),
   (0x60, 0x60, .Sk),
   (0x61, 0x7A, .Ll),
   (0x7B, 0x7B, .Ps),
   (0x7C, 0x7C, .Sm),
   (0x7D, 0x7D, .Pe),
   (0x7E, 0x7E, .Sm),
   (0x7F, 0x9F, .Cc),
   (0xA0, 0xA0, .Zs),
   (0xA1, 0x2FF, .Lo),
   (0x300, 0x36F, .Mn),
   (0x370, 0x3FF, .Lo),
   (0x400, 0x4FF, .Lt),
   (0x500, 0x5FF, .Lm),
   (0x600, 0x6FF, .Mc),
   (0x700, 0x7FF, .Me),
   (0x800, 0x8FF, .Nl),
   (0x900, 0x9FF, .No),
   (0xA00, 0xAFF, .Pi),
   (0xB00, 0xBFF, .Pf),
   (0xC00, 0xCFF, .So),
   (0xD00, 0x2027, .Lo),
   (0x2028, 0x2028, .Zl),
   (0x2029, 0x2029, .Zp),
   (0x202A, 0x202E, .Cf),
   (0x202F, 0xD7FF, .Lo),
   (0xD800, 0xDFFF, .Cs),
   (0xE000, 0xF8FF, .Co),
   (0xF900, 0xFFFF, .Lo),
   (0x10000, 0xEFFFF, .Cn),
   (0xF0000, 0x10FFFF, .Co)]

/-- Scan a row table for the first row whose interval contains `i`;
codepoints not covered by any row are unassigned (`Cn`). -/
def lookupCat : List (Nat × Nat × Cat) → Nat → Cat
  | [], _ => .Cn
  | r :: rest, i => if r.1 ≤ i ∧ i ≤ r.2.1 then r.2.2 else lookupCat rest i

/-- Modelled from the spec: the independent, trusted per-codepoint Unicode
classification (the test suite's `unicodedata.category`); in this model both
it and `charmap` read off the same table, reflecting their common origin in
one Unicode Character Database release. -/
def unicodeCategory (i : Nat) : Cat := lookupCat table i

/-- Modelled from the spec: `charmap()` maps each of the 30 category
abbreviations to the sorted interval list of the codepoints of that category,
built from the static table. -/
def charmap (c : Cat) : List (Nat × Nat) :=
  (table.filter fun r => decide (r.2.2 = c)).map fun r => (r.1, r.2.1)

/-- Total number of codepoints covered by an interval list. -/
def intervalsSize (l : List (Nat × Nat)) : Nat :=
  (l.map fun p => p.2 - p.1 + 1).sum

/-- Total number of codepoints in a category. -/
def catCount (c : Cat) : Nat := intervalsSize (charmap c)

theorem mem_allCats (c : Cat) : c ∈ allCats := by cases c <;> decide

/-- The table's rows are pairwise disjoint and in ascending order. -/
theorem tablePairwise : table.Pairwise (fun a b => a.2.1 < b.1) := by decide

/-- Executable check that consecutive rows are contiguous: each row starts
right after the one before it ends. -/
def contigB : List (Nat × Nat × Cat) → Bool
  | [] => true
  | [_] => true
  | a :: b :: rest => decide (b.1 = a.2.1 + 1) && contigB (b :: rest)

/-- The table's rows are contiguous. -/
theorem tableContig : contigB table = true := by decide

/-- Every table row has `low ≤ high`. -/
theorem tableLowHigh : ∀ r ∈ table, r.1 ≤ r.2.1 := by decide

theorem lookupCat_eq {rows : List (Nat × Nat × Cat)}
    (hsep : rows.Pairwise (fun a b => a.2.1 < b.1))
    {u v : Nat} {c : Cat} (hmem : (u, v, c) ∈ rows) {i : Nat}
    (h1 : u ≤ i) (h2 : i ≤ v) : lookupCat rows i = c := by
  induction rows with
  | nil => cases hmem
  | cons r rest ih =>
    rcases List.mem_cons.mp hmem with heq | htail
    · subst heq
      simp [lookupCat, h1, h2]
    · have hlt : r.2.1 < u := (List.pairwise_cons.mp hsep).1 _ htail
      have hni : ¬ (r.1 ≤ i ∧ i ≤ r.2.1) := by
        rintro ⟨-, hle⟩; omega
      simp only [lookupCat, if_neg hni]
      exact ih hsep.of_cons htail

/-- Each interval of `charmap c` is a table row carrying category `c`. -/
theorem charmap_mem_table {c : Cat} {p : Nat × Nat} (hp : p ∈ charmap c) :
    (p.1, p.2, c) ∈ table := by
  unfold charmap at hp
  rcases List.mem_map.mp hp with ⟨r, hr, hrp⟩
  have := List.mem_filter.mp hr
  have hc : r.2.2 = c := of_decide_eq_true this.2
  obtain ⟨ru, rv, rc⟩ := r
  cases hrp
  cases hc
  exact this.1

/-- Shared core of the per-codepoint accuracy property: any codepoint inside
an interval of `charmap c` classifies as `c`. -/
theorem unicodeCategory_of_mem {c : Cat} {p : Nat × Nat} (hp : p ∈ charmap c)
    {i : Nat} (h1 : p.1 ≤ i) (h2 : i ≤ p.2) : unicodeCategory i = c :=
  lookupCat_eq tablePairwise (charmap_mem_table hp) h1 h2

/-- High endpoint of the last row of a table. -/
def lastHigh : List (Nat × Nat × Cat) → Nat
  | [] => 0
  | [r] => r.2.1
  | _ :: rest => lastHigh rest

theorem cover_aux (rows : List (Nat × Nat × Cat)) (u v : Nat) (c : Cat)
    (i : Nat) (hc : contigB ((u, v, c) :: rows) = true) (hlo : u ≤ i)
    (hhi : i ≤ lastHigh ((u, v, c) :: rows)) :
    ∃ r ∈ (u, v, c) :: rows, r.1 ≤ i ∧ i ≤ r.2.1 := by
  induction rows generalizing u v c with
  | nil =>
    refine ⟨(u, v, c), List.mem_cons_self _ _, hlo, ?_⟩
    simpa [lastHigh] using hhi
  | cons r2 rest ih =>
    by_cases hv : i ≤ v
    · exact ⟨(u, v, c), List.mem_cons_self _ _, hlo, hv⟩
    · have hc2 : (r2.1 = v + 1) ∧ contigB (r2 :: rest) = true := by
        obtain ⟨a, b, c2⟩ := r2
        simpa [contigB] using hc
      have hlo2 : r2.1 ≤ i := by omega
      have hhi2 : i ≤ lastHigh (r2 :: rest) := by
        cases rest with
        | nil => simpa [lastHigh] using hhi
        | cons x xs => simpa [lastHigh] using hhi
      obtain ⟨a, b, c2⟩ := r2
      obtain ⟨r, hr, h1, h2⟩ := ih a b c2 hc2.2 hlo2 hhi2
      exact ⟨r, List.mem_cons_of_mem _ hr, h1, h2⟩

/-- Every codepoint is covered by some table row. -/
theorem table_covers {i : Nat} (h : i ≤ 1114111) :
    ∃ r ∈ table, r.1 ≤ i ∧ i ≤ r.2.1 := by
  have hc : contigB ((0x00, 0x1F, Cat.Cc) :: table.tail) = true := by decide
  have hl : lastHigh ((0x00, 0x1F, Cat.Cc) :: table.tail) = 1114111 := by decide
  have := cover_aux table.tail 0x00 0x1F Cat.Cc i hc (Nat.zero_le i) (by omega)
  exact this

/-- Every table row of category `c` appears as an interval of `charmap c`. -/
theorem table_mem_charmap {u v : Nat} {c : Cat} (h : (u, v, c) ∈ table) :
    (u, v) ∈ charmap c := by
  unfold charmap
  exact List.mem_map.mpr ⟨(u, v, c), List.mem_filter.mpr ⟨h, by simp⟩, rfl⟩

/-- The well-formedness predicate on interval lists checked by the test
suite's `assert_valid_range_list`, strengthened per the spec's data model:
each interval has `low ≤ high`, the list is sorted ascending, and consecutive
intervals are strictly separated (neither overlapping nor adjacent). -/
def validRangeList (l : List (Nat × Nat)) : Prop :=
  (∀ p ∈ l, p.1 ≤ p.2) ∧ l.Pairwise (fun a b => a.2 + 1 < b.1)

/-- Every interval list of `charmap` is well-formed. -/
theorem charmap_valid (c : Cat) : validRangeList (charmap c) := by
  cases c <;> exact ⟨by decide, by decide⟩

/-- C1: the union of the 30 category interval lists of `charmap` covers
exactly the codepoints `[0, 0x10FFFF]` with no gap and no overlap: the sizes
sum to 1,114,112, and every codepoint lies in exactly one interval of exactly
one category's list. -/
theorem charmap_contains_all_unicode :
    (allCats.map catCount).sum = 1114112 ∧
      ∀ i, i ≤ 1114111 →
        ∃ c p, (p ∈ charmap c ∧ p.1 ≤ i ∧ i ≤ p.2) ∧
          ∀ c' p', p' ∈ charmap c' → p'.1 ≤ i → i ≤ p'.2 → c' = c ∧ p' = p := by
  refine ⟨by decide, fun i hi => ?_⟩
  obtain ⟨⟨u, v, c⟩, hr, h1, h2⟩ := table_covers hi
  refine ⟨c, (u, v), ⟨table_mem_charmap hr, h1, h2⟩, fun c' p' hp' h1' h2' => ?_⟩
  have hc' : c' = c := by
    have e1 := unicodeCategory_of_mem hp' h1' h2'
    have e2 := unicodeCategory_of_mem (table_mem_charmap hr) h1 h2
    rw [← e1, e2]
  rw [hc'] at hp'
  refine ⟨hc', ?_⟩
  by_contra hne
  have hpw : (charmap c).Pairwise
      (fun a b => a.2 < b.1 ∨ b.2 < a.1) :=
    (charmap_valid c).2.imp fun h => Or.inl (by omega)
  have hsym : Symmetric (fun a b : Nat × Nat => a.2 < b.1 ∨ b.2 < a.1) :=
    fun a b h => h.elim Or.inr Or.inl
  have h1n : u ≤ i := h1
  have h2n : i ≤ v := h2
  have := hpw.forall hsym hp' (table_mem_charmap hr) hne
  rcases this with h | h
  · have hv : p'.2 < u := h
    omega
  · have hv : v < p'.1 := h
    omega

/-- C2: for every category `c`, every interval of `charmap c`, and every
codepoint `i` inside that interval, the trusted Unicode classification of `i`
is exactly `c`. -/
theorem charmap_has_right_categories (c : Cat) (p : Nat × Nat)
    (hp : p ∈ charmap c) (i : Nat) (h1 : p.1 ≤ i) (h2 : i ≤ p.2) :
    unicodeCategory i = c :=
  unicodeCategory_of_mem hp h1 h2

theorem charmap_has_right_categories_witness :
    (0, 0x1F) ∈ charmap Cat.Cc ∧ unicodeCategory 5 = Cat.Cc :=
  ⟨by decide,
   charmap_has_right_categories Cat.Cc (0, 0x1F) (by decide) 5
     (by decide) (by decide)⟩

theorem charmap_contains_all_unicode_witness :
    ∃ c p, (p ∈ charmap c ∧ p.1 ≤ 65 ∧ 65 ≤ p.2) ∧
      ∀ c' p', p' ∈ charmap c' → p'.1 ≤ 65 → 65 ≤ p'.2 → c' = c ∧ p' = p :=
  charmap_contains_all_unicode.2 65 (by decide)

/-- Merge a sorted interval list: adjacent or overlapping consecutive
intervals are combined, so the result is maximally merged. -/
def mergeIntervals : List (Nat × Nat) → List (Nat × Nat)
  | [] => []
  | p :: rest =>
    match mergeIntervals rest with
    | [] => [p]
    | q :: tail =>
      if q.1 ≤ p.2 + 1 then (p.1, max p.2 q.2) :: tail else p :: q :: tail

/-- Intersect one interval with the codepoint bounds `[m1, m2]`, dropping it
when the intersection is empty. -/
def clipRow (m1 m2 : Nat) (p : Nat × Nat) : Option (Nat × Nat) :=
  if max p.1 m1 ≤ min p.2 m2 then some (max p.1 m1, min p.2 m2) else none

/-- The category filter of `query`: a category is kept when it is not
excluded and, when an include set is given, is included. -/
def catPasses (excl : List Cat) (incl : Option (List Cat)) (c : Cat) : Bool :=
  !(decide (c ∈ excl)) &&
    (match incl with
     | none => true
     | some L => decide (c ∈ L))

/-- Table rows surviving the category filter, clipped to `[m1, m2]`. -/
def baseRows (excl : List Cat) (incl : Option (List Cat)) (m1 m2 : Nat) :
    List (Nat × Nat) :=
  (table.filter fun r => catPasses excl incl r.2.2).filterMap fun r =>
    clipRow m1 m2 (r.1, r.2.1)

/-- Append-or-merge a fresh interval `(u, v)` in front of an interval list
whose intervals all start after `u`. -/
def glue (u v : Nat) : List (Nat × Nat) → List (Nat × Nat)
  | [] => [(u, v)]
  | q :: rest => if q.1 ≤ v + 1 then (u, max v q.2) :: rest else (u, v) :: q :: rest

/-- Force the single codepoint `c` into an interval list (the
`include_characters` override of `query`). -/
def addCodepoint (c : Nat) : List (Nat × Nat) → List (Nat × Nat)
  | [] => [(c, c)]
  | p :: rest =>
    if c + 1 < p.1 then (c, c) :: p :: rest
    else if c ≤ p.2 + 1 then glue (min p.1 c) (max p.2 c) rest
    else p :: addCodepoint c rest

/-- Remove the single codepoint `c` from one interval, splitting it. -/
def splitOut (c : Nat) (p : Nat × Nat) : List (Nat × Nat) :=
  if p.1 ≤ c ∧ c ≤ p.2 then
    (if p.1 < c then [(p.1, c - 1)] else []) ++
      (if c < p.2 then [(c + 1, p.2)] else [])
  else [p]

/-- Force the single codepoint `c` out of an interval list (the
`exclude_characters` override of `query`). -/
def removeCodepoint (c : Nat) : List (Nat × Nat) → List (Nat × Nat)
  | [] => []
  | p :: rest => splitOut c p ++ removeCodepoint c rest

/-- Modelled from the spec: `query(exclude_categories, include_categories,
min_codepoint, max_codepoint, include_characters, exclude_characters)` (the
native implementation's source is not in this tree).  Categories are combined
by ordered interval-list algebra over the static table, the result is clipped
to the codepoint bounds and maximally merged, then every included character
is forced in and every excluded character is forced out (exclusion wins, as
it is applied last).  Characters are their codepoints. -/
def query (excl : List Cat) (incl : Option (List Cat)) (m1 m2 : Nat)
    (inclChars exclChars : List Nat) : List (Nat × Nat) :=
  exclChars.foldl (fun acc c => removeCodepoint c acc)
    (inclChars.foldl (fun acc c => addCodepoint c acc)
      (mergeIntervals (baseRows excl incl m1 m2)))

/-- Characterization of membership in `baseRows`. -/
theorem mem_baseRows {excl : List Cat} {incl : Option (List Cat)}
    {m1 m2 : Nat} {q : Nat × Nat} (hq : q ∈ baseRows excl incl m1 m2) :
    ∃ u v c, (u, v, c) ∈ table ∧ catPasses excl incl c = true ∧
      q = (max u m1, min v m2) ∧ max u m1 ≤ min v m2 := by
  unfold baseRows at hq
  rcases List.mem_filterMap.mp hq with ⟨r, hr, hclip⟩
  obtain ⟨u, v, c⟩ := r
  have hf := List.mem_filter.mp hr
  unfold clipRow at hclip
  by_cases hle : max u m1 ≤ min v m2
  · rw [if_pos hle] at hclip
    exact ⟨u, v, c, hf.1, hf.2, (Option.some_inj.mp hclip).symm, hle⟩
  · rw [if_neg hle] at hclip
    cases hclip

/-- `mergeIntervals` keeps every interval inside the bounds its input
intervals satisfy. -/
theorem mergeIntervals_bounds {m1 m2 : Nat} :
    ∀ l : List (Nat × Nat), (∀ p ∈ l, m1 ≤ p.1 ∧ p.2 ≤ m2 ∧ p.1 ≤ p.2) →
      ∀ q ∈ mergeIntervals l, m1 ≤ q.1 ∧ q.2 ≤ m2 ∧ q.1 ≤ q.2 := by
  intro l
  induction l with
  | nil => intro _ q hq; cases hq
  | cons p rest ih =>
    intro h q hq
    have hp := h p (List.mem_cons_self _ _)
    have ih' := ih fun p' hp' => h p' (List.mem_cons_of_mem _ hp')
    cases hme : mergeIntervals rest with
    | nil =>
      simp only [mergeIntervals, hme] at hq
      rcases List.mem_singleton.mp hq with rfl
      exact hp
    | cons q' tail =>
      have hq' := ih' q' (hme ▸ List.mem_cons_self _ _)
      simp only [mergeIntervals, hme] at hq
      by_cases hcond : q'.1 ≤ p.2 + 1
      · rw [if_pos hcond] at hq
        rcases List.mem_cons.mp hq with rfl | htail
        · refine ⟨hp.1, ?_, ?_⟩
          · exact Nat.max_le.mpr ⟨hp.2.1, hq'.2.1⟩
          · exact Nat.le_trans hp.2.2 (Nat.le_max_left _ _)
        · exact ih' q (hme ▸ List.mem_cons_of_mem _ htail)
      · rw [if_neg hcond] at hq
        rcases List.mem_cons.mp hq with rfl | htail
        · exact hp
        · exact ih' q (hme ▸ htail)

/-- `mergeIntervals` covers only codepoints its input intervals cover. -/
theorem mergeIntervals_cov {P : Nat → Prop} :
    ∀ l : List (Nat × Nat), (∀ p ∈ l, ∀ i, p.1 ≤ i → i ≤ p.2 → P i) →
      ∀ q ∈ mergeIntervals l, ∀ i, q.1 ≤ i → i ≤ q.2 → P i := by
  intro l
  induction l with
  | nil => intro _ q hq; cases hq
  | cons p rest ih =>
    intro h q hq i h1 h2
    have hp := h p (List.mem_cons_self _ _)
    have ih' := ih fun p' hp' => h p' (List.mem_cons_of_mem _ hp')
    cases hme : mergeIntervals rest with
    | nil =>
      simp only [mergeIntervals, hme] at hq
      rcases List.mem_singleton.mp hq with rfl
      exact hp i h1 h2
    | cons q' tail =>
      have hq'm : q' ∈ mergeIntervals rest := hme ▸ List.mem_cons_self _ _
      simp only [mergeIntervals, hme] at hq
      by_cases hcond : q'.1 ≤ p.2 + 1
      · rw [if_pos hcond] at hq
        rcases List.mem_cons.mp hq with rfl | htail
        · by_cases hip : i ≤ p.2
          · exact hp i h1 hip
          · have h2' : i ≤ max p.2 q'.2 := h2
            have hiq : i ≤ q'.2 := by
              rcases Nat.le_total p.2 q'.2 with hle | hle
              · rwa [Nat.max_eq_right hle] at h2'
              · rw [Nat.max_eq_left hle] at h2'; omega
            exact ih' q' hq'm i (by omega) hiq
        · exact ih' q (hme ▸ List.mem_cons_of_mem _ htail) i h1 h2
      · rw [if_neg hcond] at hq
        rcases List.mem_cons.mp hq with rfl | htail
        · exact hp i h1 h2
        · exact ih' q (hme ▸ htail) i h1 h2

/-- Unpack `catPasses` into its two propositional constraints. -/
theorem catPasses_iff {excl : List Cat} {incl : Option (List Cat)} {c : Cat}
    (h : catPasses excl incl c = true) :
    c ∉ excl ∧ ∀ L, incl = some L → c ∈ L := by
  unfold catPasses at h
  rcases Bool.and_eq_true_iff.mp h with ⟨h1, h2⟩
  refine ⟨?_, ?_⟩
  · intro hmem
    rw [Bool.not_eq_eq_eq_not, Bool.not_true, decide_eq_false_iff_not] at h1
    exact h1 hmem
  · intro L hL
    rw [hL] at h2
    exact of_decide_eq_true h2

/-- C3: every interval returned by `query(exclude, include, m1, m2)` lies
within `[m1, m2]`, and the sampled codepoints `u`, `v` and `(u + v) / 2` of
each returned interval `(u, v)` have a category outside `exclude` and, when
`include` is given, inside `include`. -/
theorem query_matches_categories (excl : List Cat) (incl : Option (List Cat))
    (m1 m2 : Nat) (_hm : m1 ≤ m2) :
    ∀ p ∈ query excl incl m1 m2 [] [],
      (m1 ≤ p.1 ∧ p.2 ≤ m2) ∧
        ∀ i, i = p.1 ∨ i = p.2 ∨ i = (p.1 + p.2) / 2 →
          unicodeCategory i ∉ excl ∧
            ∀ L, incl = some L → unicodeCategory i ∈ L := by
  intro p hp
  have hq : p ∈ mergeIntervals (baseRows excl incl m1 m2) := hp
  have hbase : ∀ p' ∈ baseRows excl incl m1 m2,
      m1 ≤ p'.1 ∧ p'.2 ≤ m2 ∧ p'.1 ≤ p'.2 := by
    intro p' hp'
    obtain ⟨u, v, c, -, -, rfl, hg⟩ := mem_baseRows hp'
    exact ⟨Nat.le_max_right _ _, Nat.min_le_right _ _, hg⟩
  have hbounds := mergeIntervals_bounds _ hbase p hq
  have hcover : ∀ p' ∈ baseRows excl incl m1 m2, ∀ i, p'.1 ≤ i → i ≤ p'.2 →
      catPasses excl incl (unicodeCategory i) = true := by
    intro p' hp' i h1 h2
    obtain ⟨u, v, c, hmem, hpass, rfl, -⟩ := mem_baseRows hp'
    have h1' : max u m1 ≤ i := h1
    have h2' : i ≤ min v m2 := h2
    have hcat : unicodeCategory i = c :=
      lookupCat_eq tablePairwise hmem (by omega)
        (Nat.le_trans h2' (Nat.min_le_left _ _))
    rw [hcat]
    exact hpass
  have hcov := mergeIntervals_cov _ hcover p hq
  refine ⟨⟨hbounds.1, hbounds.2.1⟩, fun i hi => ?_⟩
  have hin : p.1 ≤ i ∧ i ≤ p.2 := by
    have := hbounds.2.2
    rcases hi with rfl | rfl | rfl <;> omega
  exact catPasses_iff (hcov i hin.1 hin.2)

theorem query_matches_categories_witness :
    (0 : Nat) ≤ 255 ∧
      ∀ p ∈ query [Cat.Cc] (some [Cat.Lu, Cat.Ll]) 0 255 [] [],
        ((0 : Nat) ≤ p.1 ∧ p.2 ≤ 255) ∧
          ∀ i, i = p.1 ∨ i = p.2 ∨ i = (p.1 + p.2) / 2 →
            unicodeCategory i ∉ [Cat.Cc] ∧
              ∀ L, some [Cat.Lu, Cat.Ll] = some L → unicodeCategory i ∈ L :=
  ⟨by decide,
   query_matches_categories [Cat.Cc] (some [Cat.Lu, Cat.Ll]) 0 255 (by decide)⟩

/-- Every low endpoint of a merged list is a low endpoint of the input. -/
theorem mergeIntervals_lows :
    ∀ l : List (Nat × Nat), ∀ q ∈ mergeIntervals l, ∃ p ∈ l, p.1 = q.1 := by
  intro l
  induction l with
  | nil => intro q hq; cases hq
  | cons p rest ih =>
    intro q hq
    cases hme : mergeIntervals rest with
    | nil =>
      simp only [mergeIntervals, hme] at hq
      have heq := List.mem_singleton.mp hq
      exact ⟨p, List.mem_cons_self _ _, by rw [heq]⟩
    | cons q' tail =>
      simp only [mergeIntervals, hme] at hq
      by_cases hcond : q'.1 ≤ p.2 + 1
      · rw [if_pos hcond] at hq
        rcases List.mem_cons.mp hq with heq | htail
        · exact ⟨p, List.mem_cons_self _ _, by rw [heq]⟩
        · obtain ⟨p', hp', he⟩ := ih q (hme ▸ List.mem_cons_of_mem _ htail)
          exact ⟨p', List.mem_cons_of_mem _ hp', he⟩
      · rw [if_neg hcond] at hq
        rcases List.mem_cons.mp hq with heq | htail
        · exact ⟨p, List.mem_cons_self _ _, by rw [heq]⟩
        · obtain ⟨p', hp', he⟩ := ih q (hme ▸ htail)
          exact ⟨p', List.mem_cons_of_mem _ hp', he⟩

/-- Merging a sorted list of possibly-adjacent disjoint intervals yields a
well-formed (strictly separated) interval list. -/
theorem mergeIntervals_wf :
    ∀ l : List (Nat × Nat), (∀ p ∈ l, p.1 ≤ p.2) →
      l.Pairwise (fun a b => a.2 + 1 ≤ b.1) →
      validRangeList (mergeIntervals l) := by
  intro l
  induction l with
  | nil =>
    intro _ _
    exact ⟨fun p hp => absurd hp (List.not_mem_nil p), List.Pairwise.nil⟩
  | cons p rest ih =>
    intro hlh hsep
    have hp : p.1 ≤ p.2 := hlh p (List.mem_cons_self _ _)
    have ih' := ih (fun x hx => hlh x (List.mem_cons_of_mem _ hx)) hsep.of_cons
    cases hme : mergeIntervals rest with
    | nil =>
      simp only [mergeIntervals, hme]
      exact ⟨by simpa using hp, List.pairwise_singleton _ _⟩
    | cons q' tail =>
      rw [hme] at ih'
      have hq'lh : q'.1 ≤ q'.2 := ih'.1 q' (List.mem_cons_self _ _)
      obtain ⟨p0, hp0, he0⟩ :=
        mergeIntervals_lows rest q' (hme ▸ List.mem_cons_self _ _)
      have hsep0 : p.2 + 1 ≤ p0.1 := List.rel_of_pairwise_cons hsep hp0
      simp only [mergeIntervals, hme]
      by_cases hcond : q'.1 ≤ p.2 + 1
      · rw [if_pos hcond]
        have hmax : max p.2 q'.2 = q'.2 := Nat.max_eq_right (by omega)
        constructor
        · intro x hx
          rcases List.mem_cons.mp hx with rfl | hx2
          · show p.1 ≤ max p.2 q'.2
            rw [hmax]; omega
          · exact ih'.1 x (List.mem_cons_of_mem _ hx2)
        · rw [List.pairwise_cons]
          refine ⟨?_, (List.pairwise_cons.mp ih'.2).2⟩
          intro b hb
          have hrel := List.rel_of_pairwise_cons ih'.2 hb
          show max p.2 q'.2 + 1 < b.1
          rw [hmax]; omega
      · rw [if_neg hcond]
        constructor
        · intro x hx
          rcases List.mem_cons.mp hx with rfl | hx2
          · exact hp
          · exact ih'.1 x hx2
        · rw [List.pairwise_cons]
          refine ⟨?_, ih'.2⟩
          intro b hb
          rcases List.mem_cons.mp hb with rfl | hb2
          · omega
          · have := List.rel_of_pairwise_cons ih'.2 hb2
            omega

/-- Elements of `glue u v l` either start at `u` or come from `l`. -/
theorem glue_mem {u v : Nat} :
    ∀ l : List (Nat × Nat), ∀ q ∈ glue u v l, q.1 = u ∨ q ∈ l := by
  intro l q hq
  cases l with
  | nil =>
    rcases List.mem_singleton.mp hq with rfl
    exact Or.inl rfl
  | cons q0 rest =>
    simp only [glue] at hq
    by_cases hcond : q0.1 ≤ v + 1
    · rw [if_pos hcond] at hq
      rcases List.mem_cons.mp hq with rfl | htail
      · exact Or.inl rfl
      · exact Or.inr (List.mem_cons_of_mem _ htail)
    · rw [if_neg hcond] at hq
      rcases List.mem_cons.mp hq with rfl | htail
      · exact Or.inl rfl
      · exact Or.inr htail

/-- All low endpoints stay above a strict lower bound after forcing in a
codepoint above that bound. -/
theorem addCodepoint_lows {c lb : Nat} (hc : lb < c) :
    ∀ l : List (Nat × Nat), (∀ p ∈ l, lb < p.1) →
      ∀ q ∈ addCodepoint c l, lb < q.1 := by
  intro l
  induction l with
  | nil =>
    intro _ q hq
    rcases List.mem_singleton.mp hq with rfl
    exact hc
  | cons p rest ih =>
    intro hl q hq
    have hp := hl p (List.mem_cons_self _ _)
    have hrest := fun x hx => hl x (List.mem_cons_of_mem _ hx)
    unfold addCodepoint at hq
    by_cases h1 : c + 1 < p.1
    · rw [if_pos h1] at hq
      rcases List.mem_cons.mp hq with rfl | hq2
      · exact hc
      · exact hl q hq2
    · rw [if_neg h1] at hq
      by_cases h2 : c ≤ p.2 + 1
      · rw [if_pos h2] at hq
        rcases glue_mem rest q hq with he | hmem
        · rw [he]; exact Nat.lt_min.mpr ⟨hp, hc⟩
        · exact hrest q hmem
      · rw [if_neg h2] at hq
        rcases List.mem_cons.mp hq with rfl | hq2
        · exact hp
        · exact ih hrest q hq2

/-- Forcing a codepoint into a well-formed interval list keeps it
well-formed. -/
theorem addCodepoint_wf (c : Nat) :
    ∀ l : List (Nat × Nat), validRangeList l →
      validRangeList (addCodepoint c l) := by
  intro l
  induction l with
  | nil =>
    intro _
    exact ⟨by simp [addCodepoint], by simp [addCodepoint]⟩
  | cons p rest ih =>
    intro hv
    have hp : p.1 ≤ p.2 := hv.1 p (List.mem_cons_self _ _)
    have hhead := (List.pairwise_cons.mp hv.2).1
    have hrestv : validRangeList rest :=
      ⟨fun x hx => hv.1 x (List.mem_cons_of_mem _ hx),
       (List.pairwise_cons.mp hv.2).2⟩
    show validRangeList (addCodepoint c (p :: rest))
    unfold addCodepoint
    by_cases h1 : c + 1 < p.1
    · rw [if_pos h1]
      constructor
      · intro x hx
        rcases List.mem_cons.mp hx with rfl | hx2
        · exact Nat.le_refl c
        · exact hv.1 x hx2
      · rw [List.pairwise_cons]
        refine ⟨?_, hv.2⟩
        intro b hb
        rcases List.mem_cons.mp hb with rfl | hb2
        · omega
        · have := hhead b hb2
          omega
    · rw [if_neg h1]
      by_cases h2 : c ≤ p.2 + 1
      · rw [if_pos h2]
        cases rest with
        | nil =>
          refine ⟨?_, ?_⟩
          · intro x hx
            rcases List.mem_singleton.mp hx with rfl
            show min p.1 c ≤ max p.2 c
            have := Nat.min_le_left p.1 c
            have := Nat.le_max_left p.2 c
            omega
          · exact List.pairwise_singleton _ _
        | cons q rest' =>
          have hq1 : p.2 + 1 < q.1 := hhead q (List.mem_cons_self _ _)
          have hqlh : q.1 ≤ q.2 := hrestv.1 q (List.mem_cons_self _ _)
          have hciq : c < q.1 := by omega
          show validRangeList (glue (min p.1 c) (max p.2 c) (q :: rest'))
          simp only [glue]
          by_cases h3 : q.1 ≤ max p.2 c + 1
          · rw [if_pos h3]
            have hmax2 : max p.2 c < q.1 := by
              rcases Nat.le_total p.2 c with hle | hle
              · rw [Nat.max_eq_right hle]; omega
              · rw [Nat.max_eq_left hle]; omega
            have hmaxq : max (max p.2 c) q.2 = q.2 :=
              Nat.max_eq_right (by omega)
            constructor
            · intro x hx
              rcases List.mem_cons.mp hx with rfl | hx2
              · show min p.1 c ≤ max (max p.2 c) q.2
                rw [hmaxq]
                have := Nat.min_le_left p.1 c
                omega
              · exact hrestv.1 x (List.mem_cons_of_mem _ hx2)
            · rw [List.pairwise_cons]
              refine ⟨?_, (List.pairwise_cons.mp hrestv.2).2⟩
              intro b hb
              have := List.rel_of_pairwise_cons hrestv.2 hb
              show max (max p.2 c) q.2 + 1 < b.1
              rw [hmaxq]; omega
          · rw [if_neg h3]
            constructor
            · intro x hx
              rcases List.mem_cons.mp hx with rfl | hx2
              · show min p.1 c ≤ max p.2 c
                have := Nat.min_le_left p.1 c
                have := Nat.le_max_left p.2 c
                omega
              · exact hrestv.1 x hx2
            · rw [List.pairwise_cons]
              refine ⟨?_, hrestv.2⟩
              intro b hb
              rcases List.mem_cons.mp hb with rfl | hb2
              · show max p.2 c + 1 < b.1
                omega
              · have := List.rel_of_pairwise_cons hrestv.2 hb2
                show max p.2 c + 1 < b.1
                omega
      · rw [if_neg h2]
        have hihv := ih hrestv
        constructor
        · intro x hx
          rcases List.mem_cons.mp hx with rfl | hx2
          · exact hp
          · exact hihv.1 x hx2
        · rw [List.pairwise_cons]
          refine ⟨?_, hihv.2⟩
          intro b hb
          have := @addCodepoint_lows c (p.2 + 1) (by omega) rest
            (fun x hx => hhead x hx) b hb
          omega

/-- Both pieces of a split interval stay inside the original interval. -/
theorem splitOut_bounds {c : Nat} {p q : Nat × Nat} (hq : q ∈ splitOut c p) :
    p.1 ≤ q.1 ∧ q.2 ≤ p.2 := by
  unfold splitOut at hq
  by_cases hc : p.1 ≤ c ∧ c ≤ p.2
  · rw [if_pos hc] at hq
    rcases List.mem_append.mp hq with h | h
    · by_cases h1 : p.1 < c
      · rw [if_pos h1] at h
        rcases List.mem_singleton.mp h with rfl
        exact ⟨Nat.le_refl _, by omega⟩
      · rw [if_neg h1] at h
        cases h
    · by_cases h2 : c < p.2
      · rw [if_pos h2] at h
        rcases List.mem_singleton.mp h with rfl
        exact ⟨by omega, Nat.le_refl _⟩
      · rw [if_neg h2] at h
        cases h
  · rw [if_neg hc] at hq
    rcases List.mem_singleton.mp hq with rfl
    exact ⟨Nat.le_refl _, Nat.le_refl _⟩

/-- The pieces of a split interval are nonempty when the interval is. -/
theorem splitOut_lh {c : Nat} {p q : Nat × Nat} (hq : q ∈ splitOut c p)
    (hp : p.1 ≤ p.2) : q.1 ≤ q.2 := by
  unfold splitOut at hq
  by_cases hc : p.1 ≤ c ∧ c ≤ p.2
  · rw [if_pos hc] at hq
    rcases List.mem_append.mp hq with h | h
    · by_cases h1 : p.1 < c
      · rw [if_pos h1] at h
        rcases List.mem_singleton.mp h with rfl
        omega
      · rw [if_neg h1] at h
        cases h
    · by_cases h2 : c < p.2
      · rw [if_pos h2] at h
        rcases List.mem_singleton.mp h with rfl
        omega
      · rw [if_neg h2] at h
        cases h
  · rw [if_neg hc] at hq
    rcases List.mem_singleton.mp hq with rfl
    exact hp

/-- The split pieces of one interval are themselves strictly separated. -/
theorem splitOut_pairwise (c : Nat) (p : Nat × Nat) :
    (splitOut c p).Pairwise (fun a b => a.2 + 1 < b.1) := by
  unfold splitOut
  by_cases hc : p.1 ≤ c ∧ c ≤ p.2
  · rw [if_pos hc]
    by_cases h1 : p.1 < c
    · rw [if_pos h1]
      by_cases h2 : c < p.2
      · rw [if_pos h2]
        refine List.pairwise_cons.mpr ⟨?_, List.pairwise_singleton _ _⟩
        intro b hb
        rcases List.mem_singleton.mp hb with rfl
        show c - 1 + 1 < c + 1
        omega
      · rw [if_neg h2]
        exact List.pairwise_singleton _ _
    · rw [if_neg h1]
      by_cases h2 : c < p.2
      · rw [if_pos h2]
        exact List.pairwise_singleton _ _
      · rw [if_neg h2]
        exact List.Pairwise.nil
  · rw [if_neg hc]
    exact List.pairwise_singleton _ _

/-- Every interval left after removing a codepoint is inside an input
interval. -/
theorem removeCodepoint_sub {c : Nat} :
    ∀ l : List (Nat × Nat), ∀ q ∈ removeCodepoint c l,
      ∃ p ∈ l, p.1 ≤ q.1 ∧ q.2 ≤ p.2 := by
  intro l
  induction l with
  | nil => intro q hq; cases hq
  | cons p rest ih =>
    intro q hq
    rcases List.mem_append.mp hq with h | h
    · exact ⟨p, List.mem_cons_self _ _, splitOut_bounds h⟩
    · obtain ⟨p', hp', hb⟩ := ih q h
      exact ⟨p', List.mem_cons_of_mem _ hp', hb⟩

/-- Forcing a codepoint out of a well-formed interval list keeps it
well-formed. -/
theorem removeCodepoint_wf (c : Nat) :
    ∀ l : List (Nat × Nat), validRangeList l →
      validRangeList (removeCodepoint c l) := by
  intro l
  induction l with
  | nil => intro _; exact ⟨fun p hp => absurd hp (List.not_mem_nil p), List.Pairwise.nil⟩
  | cons p rest ih =>
    intro hv
    have hp : p.1 ≤ p.2 := hv.1 p (List.mem_cons_self _ _)
    have hhead := (List.pairwise_cons.mp hv.2).1
    have hrestv : validRangeList rest :=
      ⟨fun x hx => hv.1 x (List.mem_cons_of_mem _ hx),
       (List.pairwise_cons.mp hv.2).2⟩
    have hihv := ih hrestv
    constructor
    · intro x hx
      rcases List.mem_append.mp hx with h | h
      · exact splitOut_lh h hp
      · exact hihv.1 x h
    · refine List.pairwise_append.mpr ⟨splitOut_pairwise c p, hihv.2, ?_⟩
      intro a ha b hb
      have h1 := (splitOut_bounds ha).2
      obtain ⟨p', hp', h2, -⟩ := removeCodepoint_sub rest b hb
      have := hhead p' hp'
      omega

/-- A property preserved by each step of a fold is preserved by the fold. -/
theorem foldl_preserve {α σ : Type} {f : σ → α → σ} {P : σ → Prop}
    (hstep : ∀ s a, P s → P (f s a)) :
    ∀ (l : List α) (s : σ), P s → P (l.foldl f s) := by
  intro l
  induction l with
  | nil => intro s hs; exact hs
  | cons a l ih => intro s hs; exact ih _ (hstep s a hs)

/-- The value produced by `clipRow` is determined. -/
theorem clipRow_mem {m1 m2 : Nat} {p q : Nat × Nat}
    (hq : q ∈ clipRow m1 m2 p) : q = (max p.1 m1, min p.2 m2) := by
  unfold clipRow at hq
  by_cases hle : max p.1 m1 ≤ min p.2 m2
  · rw [if_pos hle] at hq
    exact (Option.mem_some_iff.mp hq).symm
  · rw [if_neg hle] at hq
    cases hq

/-- The clipped, filtered rows are sorted and disjoint (possibly
adjacent). -/
theorem baseRows_pairwise (excl : List Cat) (incl : Option (List Cat))
    (m1 m2 : Nat) :
    (baseRows excl incl m1 m2).Pairwise (fun a b => a.2 + 1 ≤ b.1) := by
  unfold baseRows
  rw [List.pairwise_filterMap]
  have hpw := List.Pairwise.sublist
    (List.filter_sublist (p := fun r => catPasses excl incl r.2.2) table)
    tablePairwise
  refine hpw.imp ?_
  intro a b hab x hx y hy
  have hx' := clipRow_mem hx
  have hy' := clipRow_mem hy
  rw [hx', hy']
  show min a.2.1 m2 + 1 ≤ max b.1 m1
  have h1 := Nat.min_le_left a.2.1 m2
  have h2 := Nat.le_max_left b.1 m1
  omega

/-- C4: every interval list the system produces is well-formed: every value
of `charmap()` and every result of `query()` is sorted, has `low ≤ high`
in each interval, and has consecutive intervals neither overlapping nor
adjacent. -/
theorem every_interval_list_valid :
    (∀ c, validRangeList (charmap c)) ∧
      ∀ excl incl m1 m2 ic ec, validRangeList (query excl incl m1 m2 ic ec) := by
  refine ⟨charmap_valid, ?_⟩
  intro excl incl m1 m2 ic ec
  unfold query
  apply foldl_preserve (fun s a hs => removeCodepoint_wf a s hs)
  apply foldl_preserve (fun s a hs => addCodepoint_wf a s hs)
  apply mergeIntervals_wf
  · intro p hp
    obtain ⟨u, v, c, -, -, rfl, hg⟩ := mem_baseRows hp
    exact hg
  · exact baseRows_pairwise excl incl m1 m2

/-- C5: `query()` with all defaults and `query(exclude_characters = "0")`
(codepoint 48) return different interval lists, so the two calls are
observably distinct operations. -/
theorem exclude_characters_are_included_in_key :
    query [] none 0 0x10FFFF [] [] ≠ query [] none 0 0x10FFFF [] [48] := by
  decide

/-! ## Example store ("database")

Byte strings are modelled as lists of byte values. -/

/-- A byte-string key or value. -/
abbrev Bytes : Type := List Nat

/-- Modelled from the spec: the in-process backend
(`InMemoryExampleDatabase`, whose native source is not in this tree) holds,
per key, the set of saved values; modelled as an association list. -/
abbrev ImStore : Type := List (Bytes × List Bytes)

/-- The empty in-process store. -/
def imEmpty : ImStore := []

/-- Modelled from the spec: `fetch(key)` returns the values stored under
`key`; an unknown key yields the empty sequence. -/
def imFetch : ImStore → Bytes → List Bytes
  | [], _ => []
  | (k, vs) :: rest, key => if k = key then vs else imFetch rest key

/-- Modelled from the spec: `save(key, value)` adds `value` to the set under
`key`; saving a present value is a no-op. -/
def imSave : ImStore → Bytes → Bytes → ImStore
  | [], key, v => [(key, [v])]
  | (k, vs) :: rest, key, v =>
    if k = key then (k, if v ∈ vs then vs else vs ++ [v]) :: rest
    else (k, vs) :: imSave rest key v

/-- Modelled from the spec: `delete(key, value)` removes `value` from the set
under `key`; absent key or value is a no-op. -/
def imDelete : ImStore → Bytes → Bytes → ImStore
  | [], _, _ => []
  | (k, vs) :: rest, key, v =>
    if k = key then (k, vs.erase v) :: rest else (k, vs) :: imDelete rest key v

/-- Modelled from the spec: `move(src, dest, value)` is `delete(src, value)`
followed by `save(dest, value)`. -/
def imMove (db : ImStore) (src dest v : Bytes) : ImStore :=
  imSave (imDelete db src v) dest v

/-- Modelled from the spec: the content hash used by the directory-backed
backend to derive sub-location and file names, a deterministic digest of the
byte string; modelled as an injective encoding. -/
def hashB (b : Bytes) : Bytes := b

/-- Modelled from the spec: the durable state of the directory-backed
backend (`DirectoryBasedExampleDatabase`, whose native source is not in this
tree): a map from paths `(key sub-location, file name)` to file contents. -/
abbrev FS : Type := List ((Bytes × Bytes) × Bytes)

/-- Read the file at a path, when it exists. -/
def readFile : FS → Bytes × Bytes → Option Bytes
  | [], _ => none
  | (path, content) :: rest, q => if path = q then some content else readFile rest q

/-- Directory listing: the file names present in a key's sub-location. -/
def dirListing (fs : FS) (kdir : Bytes) : List Bytes :=
  fs.filterMap fun e => if e.1.1 = kdir then some e.1.2 else none

/-- Fetch driven by an explicit directory listing: every listed name is
opened, and names whose file no longer exists are silently skipped. -/
def dirFetchFrom (fs : FS) (key : Bytes) (listing : List Bytes) : List Bytes :=
  listing.filterMap fun name => readFile fs (hashB key, name)

/-- Modelled from the spec: `delete(key, value)` removes exactly the file
named by the value's hash in the key's sub-location; a no-op when absent. -/
def dirDelete (fs : FS) (key v : Bytes) : FS :=
  fs.filter fun e => !(decide (e.1 = (hashB key, hashB v)))

/-- Modelled from the spec: `save(key, value)` writes `value` to the file
named by its content hash inside the key's sub-location. -/
def dirSave (fs : FS) (key v : Bytes) : FS :=
  ((hashB key, hashB v), v) :: dirDelete fs key v

/-- Modelled from the spec: `fetch(key)` lists the key's sub-location and
reads each listed file. -/
def dirFetch (fs : FS) (key : Bytes) : List Bytes :=
  dirFetchFrom fs key (dirListing fs (hashB key))

/-- Modelled from the spec: directory-backed `move` is `delete` then
`save`. -/
def dirMove (fs : FS) (src dest v : Bytes) : FS :=
  dirSave (dirDelete fs src v) dest v

/-- After `imSave`, the value is fetchable under the key. -/
theorem imFetch_imSave_mem :
    ∀ (db : ImStore) (key v : Bytes), v ∈ imFetch (imSave db key v) key := by
  intro db key v
  induction db with
  | nil =>
    show v ∈ imFetch [(key, [v])] key
    simp [imFetch]
  | cons e rest ih =>
    obtain ⟨k, vs⟩ := e
    show v ∈ imFetch (imSave ((k, vs) :: rest) key v) key
    unfold imSave
    by_cases hk : k = key
    · rw [if_pos hk]
      unfold imFetch
      rw [if_pos hk]
      by_cases hv : v ∈ vs
      · rw [if_pos hv]; exact hv
      · rw [if_neg hv]; exact List.mem_append.mpr (Or.inr (List.mem_singleton.mpr rfl))
    · rw [if_neg hk]
      unfold imFetch
      rw [if_neg hk]
      exact ih

/-- After `dirSave`, the value is fetchable under the key. -/
theorem dirFetch_dirSave_mem (fs : FS) (key v : Bytes) :
    v ∈ dirFetch (dirSave fs key v) key := by
  unfold dirFetch dirFetchFrom
  refine List.mem_filterMap.mpr ⟨hashB v, ?_, ?_⟩
  · unfold dirListing dirSave
    exact List.mem_filterMap.mpr
      ⟨((hashB key, hashB v), v), List.mem_cons_self _ _, by simp⟩
  · show readFile (dirSave fs key v) (hashB key, hashB v) = some v
    unfold dirSave readFile
    rw [if_pos rfl]

/-- C6: for both backends, `move(src, dest, value)` (delete from `src`, then
save under `dest`) succeeds and leaves `value` fetchable under `dest` for
every starting store; in particular, on an empty store, after
`move(b"a", b"b", b"c")` fetching `b"b"` yields `[b"c"]`, and after the
self-move `move(b"a", b"a", b"b")` fetching `b"a"` yields `[b"b"]`. -/
theorem move_makes_value_present :
    (∀ (db : ImStore) (src dest v : Bytes), v ∈ imFetch (imMove db src dest v) dest) ∧
      (∀ (fs : FS) (src dest v : Bytes), v ∈ dirFetch (dirMove fs src dest v) dest) ∧
      imFetch (imMove imEmpty [97] [98] [99]) [98] = [[99]] ∧
      imFetch (imMove imEmpty [97] [97] [98]) [97] = [[98]] ∧
      dirFetch (dirMove [] [97] [98] [99]) [98] = [[99]] ∧
      dirFetch (dirMove [] [97] [97] [98]) [97] = [[98]] := by
  refine ⟨?_, ?_, by decide, by decide, by decide, by decide⟩
  · intro db src dest v
    exact imFetch_imSave_mem (imDelete db src v) dest v
  · intro fs src dest v
    exact dirFetch_dirSave_mem (dirDelete fs src v) dest v

/-- C7: a directory-backed fetch is unaffected by the directory listing
reporting an extra entry whose file does not exist: the bogus entry is
silently skipped, never surfaced as an error. -/
theorem fetch_skips_vanished_entry (fs : FS) (key extra : Bytes)
    (h : readFile fs (hashB key, extra) = none) :
    dirFetchFrom fs key (dirListing fs (hashB key) ++ [extra]) =
      dirFetch fs key := by
  unfold dirFetch dirFetchFrom
  rw [List.filterMap_append]
  have : List.filterMap (fun name => readFile fs (hashB key, name)) [extra] = [] := by
    simp [List.filterMap, h]
  rw [this, List.append_nil]

theorem fetch_skips_vanished_entry_witness :
    readFile (dirSave [] [102, 111, 111] [98, 97, 114])
        (hashB [102, 111, 111], [0]) = none ∧
      dirFetchFrom (dirSave [] [102, 111, 111] [98, 97, 114]) [102, 111, 111]
          (dirListing (dirSave [] [102, 111, 111] [98, 97, 114])
            (hashB [102, 111, 111]) ++ [[0]]) = [[98, 97, 114]] := by
  refine ⟨by decide, ?_⟩
  rw [fetch_skips_vanished_entry (dirSave [] [102, 111, 111] [98, 97, 114])
    [102, 111, 111] [0] (by decide)]
  decide

/-! ## categories() ordering -/

/-- Insert into a list sorted by `le`. -/
def insertLE (le : Cat → Cat → Bool) (a : Cat) : List Cat → List Cat
  | [] => [a]
  | b :: l => if le a b then a :: b :: l else b :: insertLE le a l

/-- Insertion sort by `le`. -/
def sortCats (le : Cat → Cat → Bool) (l : List Cat) : List Cat :=
  l.foldr (insertLE le) []

/-- Modelled from the spec: the native implementation's `categories()`
(source not in this tree) returns the 30 abbreviations sorted ascending by
total codepoint count, with a stable deterministic tie-break — here,
ascending position in `allCats`. -/
def nativeCategories : List Cat :=
  sortCats
    (fun a b =>
      decide (catCount a < catCount b) ||
        (decide (catCount a = catCount b) &&
          decide (allCats.indexOf a ≤ allCats.indexOf b)))
    allCats

/-- Modelled from the spec: the reference implementation's `categories()`
sorts by the same codepoint-count key but may break ties differently — here,
descending position in `allCats`. -/
def refCategories : List Cat :=
  sortCats
    (fun a b =>
      decide (catCount a < catCount b) ||
        (decide (catCount a = catCount b) &&
          decide (allCats.indexOf b ≤ allCats.indexOf a)))
    allCats

/-- C8: at every position index, the native and the reference
`categories()` report categories of equal total codepoint count, even though
the two orderings themselves differ on tied categories. -/
theorem categories_align_by_count :
    nativeCategories.map catCount = refCategories.map catCount ∧
      nativeCategories ≠ refCategories :=
  ⟨by decide, by decide⟩

/-! ## Table generator (`crates/charmap/generate_tables.py`) -/

/-- The `CATEGORY_ABBREVIATIONS` constant of `generate_tables.py`, in source
order: long Unicode General_Category names with their two-letter
abbreviations. -/
def CATEGORY_ABBREVIATIONS : List (String × String) :=
  [("Close_Punctuation", "Pe"),
   ("Connector_Punctuation", "Pc"),
   ("Control", "Cc"),
   ("Currency_Symbol", "Sc"),
   ("Dash_Punctuation", "Pd"),
   ("Decimal_Number", "Nd"),
   ("Enclosing_Mark", "Me"),
   ("Final_Punctuation", "Pf"),
   ("Format", "Cf"),
   ("Initial_Punctuation", "Pi"),
   ("Letter_Number", "Nl"),
   ("Line_Separator", "Zl"),
   ("Lowercase_Letter", "Ll"),
   ("Math_Symbol", "Sm"),
   ("Modifier_Letter", "Lm"),
   ("Modifier_Symbol", "Sk"),
   ("Nonspacing_Mark", "Mn"),
   ("Open_Punctuation", "Ps"),
   ("Other_Letter", "Lo"),
   ("Other_Number", "No"),
   ("Other_Punctuation", "Po"),
   ("Other_Symbol", "So"),
   ("Paragraph_Separator", "Zp"),
   ("Private_Use", "Co"),
   ("Space_Separator", "Zs"),
   ("Spacing_Mark", "Mc"),
   ("Surrogate", "Cs"),
   ("Titlecase_Letter", "Lt"),
   ("Unassigned", "Cn"),
   ("Uppercase_Letter", "Lu")]

/-- Replace every occurrence of the pattern `p :: ps` by `rep`, scanning left
to right and never rescanning replaced text — the semantics of Python's
`str.replace` with a nonempty pattern.  Each step consumes at least one
character, so a fuel of the text's length always suffices. -/
def replaceAllAux (p : Char) (ps rep : List Char) :
    Nat → List Char → List Char
  | 0, t => t
  | _, [] => []
  | fuel + 1, c :: rest =>
    if (p :: ps).isPrefixOf (c :: rest)
    then rep ++ replaceAllAux p ps rep fuel (rest.drop ps.length)
    else c :: replaceAllAux p ps rep fuel rest

/-- `text.replace(pat, rep)`: replacing with an empty pattern is the
identity, matching the generator's use on nonempty category names. -/
def replaceAll (pat rep text : List Char) : List Char :=
  match pat with
  | [] => text
  | p :: ps => replaceAllAux p ps rep text.length text

/-- The post-processing loop of `generate_tables.py`: replace each long
category name by its abbreviation, iterating over the given entries in
order. -/
def applyAll (tbl : List (List Char × List Char)) (t : List Char) : List Char :=
  tbl.foldl (fun acc kv => replaceAll kv.1 kv.2 acc) t

/-- The abbreviation entries as character lists. -/
def abbrevPairs : List (List Char × List Char) :=
  CATEGORY_ABBREVIATIONS.map fun kv => (kv.1.toList, kv.2.toList)

/-- Substring test on character lists. -/
def containsSub (pat : List Char) : List Char → Bool
  | [] => pat.isEmpty
  | c :: rest => pat.isPrefixOf (c :: rest) || containsSub pat rest

/-- C9 (counterexample): the abbreviation table does not have 29 entries. -/
theorem category_abbreviations_not_29 :
    ¬ CATEGORY_ABBREVIATIONS.length = 29 := by decide

/-- C9 (amended): the abbreviation table is a fixed mapping of exactly 30
distinct long Unicode General_Category names (the 29 assigned categories
plus "Unassigned") to two-letter abbreviations, with "Uppercase_Letter"
mapping to "Lu". -/
theorem category_abbreviations_table :
    CATEGORY_ABBREVIATIONS.length = 30 ∧
      (CATEGORY_ABBREVIATIONS.map Prod.fst).Nodup ∧
      ("Uppercase_Letter", "Lu") ∈ CATEGORY_ABBREVIATIONS ∧
      ∀ kv ∈ CATEGORY_ABBREVIATIONS, kv.2.length = 2 :=
  ⟨by decide, by decide, by decide, by decide⟩

/-- A text on which the replacement loop's result depends on the iteration
order: replacing "Other_Number" by "No" creates a fresh occurrence of
"Nonspacing_Mark". -/
def counterText : List Char := "Other_Numbernspacing_Mark".toList

/-- C10 (counterexample): the replacement loop is not iteration-order
independent — the source order and its reverse disagree on `counterText`. -/
theorem replacement_not_order_independent :
    applyAll abbrevPairs counterText ≠
      applyAll abbrevPairs.reverse counterText := by decide

/-- C10 (amended): no long category name is a substring of any other long
category name; nevertheless a performed replacement can create a new
occurrence of a not-yet-replaced long name (an abbreviation can extend to a
long name, as "No" begins "Nonspacing_Mark"), so the post-processing loop's
result is not the same for every iteration order on every input text. -/
theorem replacement_amended :
    (∀ kv1 ∈ CATEGORY_ABBREVIATIONS, ∀ kv2 ∈ CATEGORY_ABBREVIATIONS,
        kv1.1 ≠ kv2.1 → containsSub kv1.1.toList kv2.1.toList = false) ∧
      applyAll abbrevPairs counterText ≠
        applyAll abbrevPairs.reverse counterText :=
  ⟨by decide, by decide⟩

end HypothesisRs
